import Mathlib

/-!
# Verification of the xschema validation engine against its specification

The repository ships the test suite of the engine (`src/xschema-spec.js`); the
engine itself (`xschema.js`) is not part of the sources.  The definitions
below are therefore a shallow embedding modelled from the specification
(`spec.md`), kept faithful to every behavior the test suite in `src/`
observes.  Machine numbers are modelled as `Int`, JavaScript values as an
inductive tree, and the code-generating validator as a fuel-indexed
recursive function over the normalized schema tree (the fuel only bounds
schema nesting depth; all claims hold for every sufficient fuel).
-/

namespace XSchema

/-- Modelled from the spec: a JavaScript value as seen by the validator
(scalars, ordered sequences, records).  Numbers are modelled as `Int`,
which is enough to distinguish every value the claims mention. -/
inductive Val where
  | vnull
  | vbool (b : Bool)
  | vnum (n : Int)
  | vstr (s : String)
  | varr (xs : List Val)
  | vobj (fs : List (String × Val))

/-- A validation diagnostic: an error code from the closed vocabulary and a
dotted field path, as described in spec section 4.A. -/
structure Err where
  code : String
  path : String
deriving DecidableEq

/-- Modelled from the spec: the option flags relevant to the claims
(`kDeltaMode` and `kAccumulateErrors`); the extract flags are not needed by
any claim and are left out of the model. -/
structure Opts where
  delta : Bool
  accumulate : Bool

/-- No options set (`kNoOptions`). -/
def kNoOpts : Opts := ⟨false, false⟩

/-- Only `kDeltaMode` set. -/
def kDelta : Opts := ⟨true, false⟩

/-- Only `kAccumulateErrors` set. -/
def kAccum : Opts := ⟨false, true⟩

/-- Per-field directives of an object property other than its child schema:
`$optional` and the `$w` write-access expression. -/
structure FldA where
  optional : Bool
  w : Option String

/-- Modelled from the spec: a normalized schema node.  Fields of an object
node are kept in declaration order; each carries its name, its `FldA`
directives and its child schema.  `sint64` is the `int64` big-integer type;
`sobj` carries `$nullable`, `$delta`, `$w` and the field list. -/
inductive Sch where
  | sbool (nullable : Bool)
  | sint (nullable : Bool) (minV maxV : Option Int)
  | sdouble (nullable : Bool)
  | sstr (nullable : Bool)
  | sint64 (nullable : Bool)
  | sarr (nullable : Bool) (elem : Sch)
  | sobj (nullable : Bool) (delta : Option Bool) (w : Option String) (fields : List (String × FldA × Sch))

/-- Split a character list on the pipe character, producing the `|`-separated
tokens of an access expression. -/
def splitOnPipe : List Char → List Char → List String
  | [], cur => [String.mk cur.reverse]
  | c :: rest, cur =>
    if c = '|' then String.mk cur.reverse :: splitOnPipe rest []
    else splitOnPipe rest (c :: cur)

/-- Modelled from the spec: the effective token set of a `$w` directive.
A missing directive inherits entirely; the token `inherit` is replaced by
the effective tokens of the nearest ancestor (the root falls back to `*`). -/
def effW (inh : List String) (w : Option String) : List String :=
  match w with
  | none => inh
  | some s => (splitOnPipe s.data []).flatMap fun t => if t = "inherit" then inh else [t]

/-- Modelled from the spec: satisfaction of a `|`-expression by a role set.
`*` always satisfies, `none` never does, any other token must be held. -/
def satW (toks roles : List String) : Bool :=
  toks.any fun t => t == "*" || (t != "none" && roles.contains t)

/-- A field with effective parent tokens `inh` and directive `w` is writable
by the role set `roles`. -/
def writable (inh : List String) (w : Option String) (roles : List String) : Bool :=
  satW (effW inh w) roles

/-- Dotted path of a child field. -/
def childPath (path name : String) : String :=
  if path = "" then name else path ++ "." ++ name

/-- First value bound to a key in a record, scanning in declaration order. -/
def lookupF : List (String × Val) → String → Option Val
  | [], _ => none
  | (k, v) :: rest, n => if k = n then some v else lookupF rest n

/-- Range check of an optional `$min`/`$max` bound against an integer. -/
def boundOk (mn mx : Option Int) (k : Int) : Bool :=
  (match mn with | some m => decide (m ≤ k) | none => true) &&
  (match mx with | some m => decide (k ≤ m) | none => true)

/-- Decimal digit test on the code point (48–57, that is `0`–`9`). -/
def isDig (c : Char) : Bool := 48 ≤ c.toNat && c.toNat ≤ 57

/-- All-digit test for a character list. -/
def allDigits (l : List Char) : Bool := l.all isDig

/-- Does the string start with the minus sign? -/
def isNeg : List Char → Bool
  | [] => false
  | c :: _ => c.toNat == 45

/-- A nonempty digit run whose leading digit is not `0`. -/
def isNonzeroPos : List Char → Bool
  | [] => false
  | c :: rest => isDig c && c.toNat != 48 && allDigits (c :: rest)

/-- An unsigned canonical decimal: `"0"` itself, or digits without a
leading zero. -/
def isPosChars : List Char → Bool
  | [] => false
  | c :: rest => (c.toNat == 48 && rest.isEmpty) || isNonzeroPos (c :: rest)

/-- Modelled from the spec and the `int64` tests: the canonical big-integer
string accepted by the engine.  `"0"` is accepted, a nonempty run of digits
without a leading zero is accepted with an optional leading minus; the tests
reject `"-0"`, `"-00"`, `"00"` and every padded or non-decimal form. -/
def isBigIntChars (l : List Char) : Bool :=
  if isNeg l then isNonzeroPos (l.drop 1) else isPosChars l

/-- The `isBigInt` classifier on strings. -/
def isBigInt (s : String) : Bool := isBigIntChars s.data

/-- Numeric value of an unsigned digit string. -/
def digitsVal : List Char → Nat
  | [] => 0
  | c :: cs => (c.toNat - 48) * 10 ^ cs.length + digitsVal cs

/-- Integer value of a canonical big-integer character list. -/
def strToIntChars (l : List Char) : Int :=
  if isNeg l then - (digitsVal (l.drop 1) : Int) else (digitsVal l : Int)

/-- Integer value of a canonical big-integer string. -/
def strToInt (s : String) : Int := strToIntChars s.data

/-- Lexicographic three-way comparison of two character lists by code
point. -/
def lexCmp : List Char → List Char → Int
  | a :: as, b :: bs =>
    if a.toNat < b.toNat then -1 else if b.toNat < a.toNat then 1 else lexCmp as bs
  | [], [] => 0
  | [], _ :: _ => -1
  | _ :: _, [] => 1

/-- Magnitude comparison of two unsigned digit strings: shorter means
smaller, equal lengths compare lexicographically. -/
def cmpMag (a b : List Char) : Int :=
  if a.length < b.length then -1
  else if b.length < a.length then 1
  else lexCmp a b

/-- Modelled from the spec: `compareBigInt` returns −1/0/1 using
sign-then-length-then-lex comparison. -/
def compareBigIntChars (x y : List Char) : Int :=
  if isNeg x then
    if isNeg y then - cmpMag (x.drop 1) (y.drop 1) else -1
  else if isNeg y then 1
  else cmpMag x y

/-- The `compareBigInt` comparison on strings. -/
def compareBigInt (a b : String) : Int := compareBigIntChars a.data b.data

/-- Lower bound string of the signed 64-bit range. -/
def kInt64Min : String := "-9223372036854775808"

/-- Upper bound string of the signed 64-bit range. -/
def kInt64Max : String := "9223372036854775807"

/-- Modelled from the spec: the `int64` type accepts exactly the canonical
big-integer strings within the signed 64-bit bounds, compared with
`compareBigInt`. -/
def validInt64 (v : Val) : Bool :=
  match v with
  | .vstr s =>
    isBigInt s && decide (0 ≤ compareBigInt s kInt64Min) &&
      decide (compareBigInt s kInt64Max ≤ 0)
  | _ => false

/-- Modelled from the spec: the compiled validation routine.  It walks the
input depth-first in field declaration order and returns the diagnostics in
that order.  `fuel` bounds the schema nesting depth, `inh` is the effective
access-token set inherited from the enclosing scope, `acc` is `none` when
access checking is disabled or the set of roles held by the caller. -/
def vSch : Nat → Opts → Option (List String) → List String → String → Sch → Val → List Err
  | 0, _, _, _, path, _, _ => [⟨"FuelExhausted", path⟩]
  | n + 1, o, acc, inh, path, s, v =>
    match s with
    | .sbool nl =>
      match v with
      | .vbool _ => []
      | .vnull => if nl then [] else [⟨"ExpectedBoolean", path⟩]
      | _ => [⟨"ExpectedBoolean", path⟩]
    | .sint nl mn mx =>
      match v with
      | .vnum k => if boundOk mn mx k then [] else [⟨"OutOfRange", path⟩]
      | .vnull => if nl then [] else [⟨"ExpectedNumber", path⟩]
      | _ => [⟨"ExpectedNumber", path⟩]
    | .sdouble nl =>
      match v with
      | .vnum _ => []
      | .vnull => if nl then [] else [⟨"ExpectedNumber", path⟩]
      | _ => [⟨"ExpectedNumber", path⟩]
    | .sstr nl =>
      match v with
      | .vstr _ => []
      | .vnull => if nl then [] else [⟨"ExpectedString", path⟩]
      | _ => [⟨"ExpectedString", path⟩]
    | .sint64 nl =>
      match v with
      | .vnull => if nl then [] else [⟨"InvalidValue", path⟩]
      | v => if validInt64 v then [] else [⟨"InvalidValue", path⟩]
    | .sarr nl e =>
      match v with
      | .varr xs =>
        ((List.range xs.length).zip xs).flatMap fun p =>
          vSch n o acc inh (path ++ "[" ++ toString p.1 ++ "]") e p.2
      | .vnull => if nl then [] else [⟨"ExpectedArray", path⟩]
      | _ => [⟨"ExpectedArray", path⟩]
    | .sobj nl d w fields =>
      match v with
      | .vobj fs =>
        let eW := effW inh w
        let deltaOk := o.delta && !(d == some false)
        (fields.flatMap fun q =>
          let cp := childPath path q.1
          let fW := effW eW q.2.1.w
          match lookupF fs q.1 with
          | some cv =>
            (match acc with
             | some roles => if satW fW roles then [] else [⟨"NoAccess", cp⟩]
             | none => []) ++ vSch n o acc fW cp q.2.2 cv
          | none =>
            if q.2.1.optional || deltaOk then [] else [⟨"MissingProperty", cp⟩]) ++
        fs.filterMap fun kv =>
          if fields.any (fun q => q.1 == kv.1) then none
          else some ⟨"UnexpectedProperty", childPath path kv.1⟩
      | .vnull => if nl then [] else [⟨"ExpectedObject", path⟩]
      | _ => [⟨"ExpectedObject", path⟩]

/-- Output mirror built for a valid input: recognized fields are copied in
declaration order (the model has no `$default` directives, so the copy is
structural). -/
def oSch : Nat → Sch → Val → Val
  | 0, _, v => v
  | n + 1, s, v =>
    match s, v with
    | .sarr _ e, .varr xs => .varr (xs.map fun x => oSch n e x)
    | .sobj _ _ _ fields, .vobj fs =>
      .vobj (fields.filterMap fun q =>
        (lookupF fs q.1).map fun cv => (q.1, oSch n q.2.2 cv))
    | _, v => v

/-- Result of `process`: the output value or the thrown `SchemaError`
carrying its diagnostics. -/
inductive VRes where
  | ok (v : Val)
  | err (es : List Err)

/-- Modelled from the spec: `process` runs the compiled routine; in
fail-fast mode the first diagnostic alone is thrown, in accumulation mode
(`kAccumulateErrors`) the whole collected sequence is thrown at the end. -/
def process (fuel : Nat) (v : Val) (s : Sch) (o : Opts) (acc : Option (List String)) : VRes :=
  let es := vSch fuel o acc ["*"] "" s v
  if es.isEmpty then .ok (oSch fuel s v)
  else .err (if o.accumulate then es else es.take 1)

/-- Whether `process` succeeds on this input. -/
def passes (fuel : Nat) (v : Val) (s : Sch) (o : Opts) (acc : Option (List String)) : Bool :=
  (vSch fuel o acc ["*"] "" s v).isEmpty

/-- The literal pattern written in the spec for `isBigInt`:
`-?(0|[1-9][0-9]*)` — an optional minus sign followed by `"0"` or by digits
without a leading zero.  Kept separate from `isBigIntChars` so the two can
be compared. -/
def specBigIntPattern (s : String) : Bool :=
  if isNeg s.data then isPosChars (s.data.drop 1) else isPosChars s.data

/-- Modelled from the spec: `$extend` overriding a field: an existing field
of that name is replaced in place, a new one is appended in declaration
order. -/
def putField (fs : List (String × FldA × Sch)) (f : String × FldA × Sch) :
    List (String × FldA × Sch) :=
  if fs.any fun g => g.1 == f.1 then fs.map fun g => if g.1 == f.1 then f else g
  else fs ++ [f]

/-- Modelled from the spec: `$extend` with a field set to `undefined`
removes the field of that name. -/
def delField (fs : List (String × FldA × Sch)) (n : String) : List (String × FldA × Sch) :=
  fs.filter fun g => g.1 != n

/-! ## Reference-tracking values (`misc.cloneDeep` / `misc.equals`)

To state that the deep clone shares no object or array references with its
input, every array and object node carries an allocation identifier.
`cloneD` threads a fresh-identifier counter, mirroring that the clone
allocates new containers for every container of the input. -/

mutual
/-- Modelled from the spec: a JavaScript value in which each array and
object remembers the identity of its allocation. -/
inductive RVal where
  | rnull
  | rbool (b : Bool)
  | rnum (n : Int)
  | rstr (s : String)
  | rarr (id : Nat) (elems : RList)
  | robj (id : Nat) (fields : RFields)
/-- Element list of an array value. -/
inductive RList where
  | rnil
  | rcons (v : RVal) (t : RList)
/-- Field list of an object value. -/
inductive RFields where
  | fnil
  | fcons (k : String) (v : RVal) (t : RFields)
end

mutual
/-- Modelled from the spec: deep clone.  Scalars are reproduced, each
array or object is rebuilt in a fresh allocation (a new identifier taken
from the counter `c`). -/
def cloneD (c : Nat) : RVal → RVal × Nat
  | .rnull => (.rnull, c)
  | .rbool b => (.rbool b, c)
  | .rnum n => (.rnum n, c)
  | .rstr s => (.rstr s, c)
  | .rarr _ es =>
    let p := cloneL (c + 1) es
    (.rarr c p.1, p.2)
  | .robj _ fs =>
    let p := cloneF (c + 1) fs
    (.robj c p.1, p.2)
/-- Deep clone of an element list. -/
def cloneL (c : Nat) : RList → RList × Nat
  | .rnil => (.rnil, c)
  | .rcons v t =>
    let p := cloneD c v
    let q := cloneL p.2 t
    (.rcons p.1 q.1, q.2)
/-- Deep clone of a field list. -/
def cloneF (c : Nat) : RFields → RFields × Nat
  | .fnil => (.fnil, c)
  | .fcons k v t =>
    let p := cloneD c v
    let q := cloneF p.2 t
    (.fcons k p.1 q.1, q.2)
end

/-- First value bound to a key in a field list. -/
def flookup : RFields → String → Option RVal
  | .fnil, _ => none
  | .fcons k v t, n => if k = n then some v else flookup t n

/-- Number of fields. -/
def flen : RFields → Nat
  | .fnil => 0
  | .fcons _ _ t => flen t + 1

mutual
/-- Modelled from the spec: structural deep equality — scalars by value,
arrays element-wise, objects by key-set equality with values compared
recursively.  Allocation identifiers are ignored. -/
def eqR : RVal → RVal → Bool
  | .rnull, .rnull => true
  | .rbool a, .rbool b => a == b
  | .rnum a, .rnum b => a == b
  | .rstr a, .rstr b => a == b
  | .rarr _ a, .rarr _ b => eqL a b
  | .robj _ a, .robj _ b => flen a == flen b && fsub a b
  | _, _ => false
/-- Element-wise equality of element lists. -/
def eqL : RList → RList → Bool
  | .rnil, .rnil => true
  | .rcons a t, .rcons b u => eqR a b && eqL t u
  | _, _ => false
/-- Every field of the first list is present in the second with an equal
value. -/
def fsub : RFields → RFields → Bool
  | .fnil, _ => true
  | .fcons k v t, b =>
    (match flookup b k with
     | some w => eqR v w
     | none => false) && fsub t b
end

/-- Keys of a field list in order. -/
def fkeys : RFields → List String
  | .fnil => []
  | .fcons k _ t => k :: fkeys t

/-- No key occurs twice. -/
def nodupKeysF : RFields → Bool
  | .fnil => true
  | .fcons k _ t => !(decide (k ∈ fkeys t)) && nodupKeysF t

/-- The key/value entries of a field list in order. -/
def fentries : RFields → List (String × RVal)
  | .fnil => []
  | .fcons k v t => (k, v) :: fentries t

mutual
/-- Well-formed JavaScript value: object keys are distinct at every
level (JavaScript records cannot bind a key twice). -/
def wfR : RVal → Bool
  | .rarr _ es => wfL es
  | .robj _ fs => nodupKeysF fs && wfF fs
  | _ => true
/-- Well-formedness of an element list. -/
def wfL : RList → Bool
  | .rnil => true
  | .rcons v t => wfR v && wfL t
/-- Well-formedness of a field list. -/
def wfF : RFields → Bool
  | .fnil => true
  | .fcons _ v t => wfR v && wfF t
end

mutual
/-- Allocation identifiers of all arrays and objects in a value. -/
def idsR : RVal → List Nat
  | .rarr i es => i :: idsL es
  | .robj i fs => i :: idsF fs
  | _ => []
/-- Identifiers inside an element list. -/
def idsL : RList → List Nat
  | .rnil => []
  | .rcons v t => idsR v ++ idsL t
/-- Identifiers inside a field list. -/
def idsF : RFields → List Nat
  | .fnil => []
  | .fcons _ v t => idsR v ++ idsF t
end

/-- Largest allocation identifier used in a value. -/
def maxIdR (x : RVal) : Nat := (idsR x).foldr Nat.max 0

/-! ## Enum factory -/

/-- Modelled from the spec: `keyToValue` looks a key up in the definition
(an insertion-ordered key/value sequence). -/
def keyToValue (defs : List (String × Int)) (k : String) : Option Int :=
  (defs.find? fun p => p.1 == k).map fun p => p.2

/-- Modelled from the spec: the `$.valueMap` metadata — value to first key
in insertion order when values collide. -/
def valueMapE : List (String × Int) → List (Int × String)
  | [] => []
  | (k, v) :: rest => (v, k) :: (valueMapE rest).filter fun p => p.1 != v

/-- Modelled from the spec: `valueToKey` looks a value up in `valueMap`. -/
def valueToKey (defs : List (String × Int)) (v : Int) : Option String :=
  ((valueMapE defs).find? fun p => p.1 == v).map fun p => p.2

/-- No integer occurs twice. -/
def nodupB : List Int → Bool
  | [] => true
  | x :: t => !(decide (x ∈ t)) && nodupB t

/-- No string occurs twice. -/
def nodupS : List String → Bool
  | [] => true
  | x :: t => !(decide (x ∈ t)) && nodupS t

/-- Modelled from the spec: the `$.unique` metadata — no duplicate
values. -/
def uniqueVals (defs : List (String × Int)) : Bool := nodupB (defs.map fun p => p.2)

/-! ## `$unique` derivation -/

/-- The `$unique` directive of a field: absent, a plain boolean, or a
group-name string (`"g1|g2"` names several groups). -/
inductive UniqDir where
  | noneU
  | flagU (b : Bool)
  | groupU (g : String)

/-- A field as the `$uniqueArray` derivation sees it: its name, its `$pk`
flag and its `$unique` directive. -/
structure UFld where
  name : String
  pk : Bool
  uniq : UniqDir

/-- Group names listed by a `$unique` directive. -/
def uniqTokens : UniqDir → List String
  | .groupU s => splitOnPipe s.data []
  | _ => []

/-- Record a field as a member of a named group, creating the group at the
end on first use. -/
def addToGroup (g f : String) : List (String × List String) → List (String × List String)
  | [] => [(g, [f])]
  | (h, ms) :: rest =>
    if h == g then (h, ms ++ [f]) :: rest else (h, ms) :: addToGroup g f rest

/-- Modelled from the spec: membership of the named unique groups, scanning
fields in declaration order. -/
def namedGroups (flds : List UFld) : List (String × List String) :=
  flds.foldl (fun acl f => (uniqTokens f.uniq).foldl (fun a g => addToGroup g f.name a) acl) []

/-- Singleton groups from fields with a plain truthy `$unique`. -/
def plainTuples (flds : List UFld) : List (List String) :=
  flds.filterMap fun f => match f.uniq with | .flagU true => some [f.name] | _ => none

/-- Names of the primary-key fields in declaration order. -/
def pkFields (flds : List UFld) : List String :=
  (flds.filter fun f => f.pk).map fun f => f.name

/-- The implicit unique group of all primary-key fields together. -/
def pkAllTuple (flds : List UFld) : List (List String) :=
  if (pkFields flds).isEmpty then [] else [pkFields flds]

/-- Each primary-key field joined with every other member of every named
unique group it participates in (the Cartesian expansion). -/
def pkJoinTuples (flds : List UFld) : List (List String) :=
  (pkFields flds).flatMap fun p =>
    (namedGroups flds).flatMap fun gm =>
      if gm.2.contains p then gm.2.filterMap fun m => if m == p then none else some [p, m]
      else []

/-- Code-point lexicographic order on character lists. -/
def charListLe : List Char → List Char → Bool
  | x :: xs, y :: ys =>
    if x.toNat < y.toNat then true else if y.toNat < x.toNat then false else charListLe xs ys
  | [], _ => true
  | _ :: _, [] => false

/-- Code-point lexicographic order on strings. -/
def strLe (a b : String) : Bool := charListLe a.data b.data

/-- Insert a string into a sorted list. -/
def insertStr (x : String) : List String → List String
  | [] => [x]
  | y :: t => if strLe x y then x :: y :: t else y :: insertStr x t

/-- Sort the field names of a tuple. -/
def sortT (l : List String) : List String := l.foldr insertStr []

/-- Drop duplicate tuples, keeping first occurrences. -/
def dedupT : List (List String) → List (List String) → List (List String)
  | _, [] => []
  | seen, t :: ts =>
    if seen.contains t then dedupT seen ts else t :: dedupT (t :: seen) ts

/-- Modelled from the spec: the derived `$uniqueArray` — plain singleton
groups, named groups, the all-primary-key group and the primary-key
Cartesian expansion, each tuple with sorted field names, deduplicated. -/
def uniqueArray (flds : List UFld) : List (List String) :=
  dedupT []
    ((plainTuples flds ++ (namedGroups flds).map (fun gm => gm.2) ++
        pkAllTuple flds ++ pkJoinTuples flds).map sortT)

/-- Join a tuple with pipes, as the test helper `sortedArrayOfArrays`
does. -/
def joinPipe : List String → String
  | [] => ""
  | [x] => x
  | x :: t => x ++ "|" ++ joinPipe t

/-- Insert a tuple into a list sorted by the joined representation. -/
def insertTuple (x : List String) : List (List String) → List (List String)
  | [] => [x]
  | y :: t => if strLe (joinPipe x) (joinPipe y) then x :: y :: t else y :: insertTuple x t

/-- Sort tuples by their joined representation, mirroring the test helper
`sortedArrayOfArrays`. -/
def sortTuples (l : List (List String)) : List (List String) := l.foldr insertTuple []

/-! ## `date` / `time` / `datetime` with `$leapSecond` -/

/-- Tokens of the date/time format grammar needed by the claims: four-digit
year, two-digit month, day, hour, minute, second, and literal separators. -/
inductive FTok where
  | y4
  | m2
  | d2
  | h2
  | mi2
  | s2
  | lit (c : Char)

/-- The default `datetime` format `YYYY-MM-DD HH:mm:ss`. -/
def fmtDateTime : List FTok :=
  [.y4, .lit '-', .m2, .lit '-', .d2, .lit ' ', .h2, .lit ':', .mi2, .lit ':', .s2]

/-- The custom format `MM-DD HH:mm:ss` that omits the year. -/
def fmtMMDD : List FTok :=
  [.m2, .lit '-', .d2, .lit ' ', .h2, .lit ':', .mi2, .lit ':', .s2]

/-- The default `time` format `HH:mm:ss`. -/
def fmtTime : List FTok := [.h2, .lit ':', .mi2, .lit ':', .s2]

/-- The components recovered from a parsed date/time string; a component
missing from the format stays `none`. -/
structure DTVal where
  year : Option Nat
  month : Option Nat
  day : Option Nat
  hour : Option Nat
  minute : Option Nat
  second : Option Nat

/-- The empty component record. -/
def emptyDT : DTVal := ⟨none, none, none, none, none, none⟩

/-- Numeric value of two digit characters. -/
def dval2 (a b : Char) : Nat := (a.toNat - 48) * 10 + (b.toNat - 48)

/-- Modelled from the spec: match a character list against a format token
list, collecting the numeric components; fixed-width digit runs and exact
literal separators, nothing else. -/
def parseF : List FTok → List Char → DTVal → Option DTVal
  | [], [], dt => some dt
  | [], _ :: _, _ => none
  | .y4 :: ts, a :: b :: c :: d :: r, dt =>
    if isDig a && isDig b && isDig c && isDig d then
      parseF ts r ⟨some (dval2 a b * 100 + dval2 c d), dt.month, dt.day, dt.hour, dt.minute, dt.second⟩
    else none
  | .y4 :: _, _, _ => none
  | .m2 :: ts, a :: b :: r, dt =>
    if isDig a && isDig b then
      parseF ts r ⟨dt.year, some (dval2 a b), dt.day, dt.hour, dt.minute, dt.second⟩
    else none
  | .m2 :: _, _, _ => none
  | .d2 :: ts, a :: b :: r, dt =>
    if isDig a && isDig b then
      parseF ts r ⟨dt.year, dt.month, some (dval2 a b), dt.hour, dt.minute, dt.second⟩
    else none
  | .d2 :: _, _, _ => none
  | .h2 :: ts, a :: b :: r, dt =>
    if isDig a && isDig b then
      parseF ts r ⟨dt.year, dt.month, dt.day, some (dval2 a b), dt.minute, dt.second⟩
    else none
  | .h2 :: _, _, _ => none
  | .mi2 :: ts, a :: b :: r, dt =>
    if isDig a && isDig b then
      parseF ts r ⟨dt.year, dt.month, dt.day, dt.hour, some (dval2 a b), dt.second⟩
    else none
  | .mi2 :: _, _, _ => none
  | .s2 :: ts, a :: b :: r, dt =>
    if isDig a && isDig b then
      parseF ts r ⟨dt.year, dt.month, dt.day, dt.hour, dt.minute, some (dval2 a b)⟩
    else none
  | .s2 :: _, _, _ => none
  | .lit c :: ts, d :: r, dt => if d.toNat == c.toNat then parseF ts r dt else none
  | .lit _ :: _, [], _ => none

/-- Gregorian leap-year rule (`$leapYear` defaults to true). -/
def isLeapYear (y : Nat) : Bool := (y % 4 == 0 && y % 100 != 0) || y % 400 == 0

/-- Days of a month; without a year, February admits 29. -/
def monthDays (y : Option Nat) (m : Nat) : Nat :=
  if m == 2 then
    match y with
    | some yy => if isLeapYear yy then 29 else 28
    | none => 29
  else if m == 4 || m == 6 || m == 9 || m == 11 then 30 else 31

/-- Modelled from the spec: the closed list of historical
leap-second-inserted dates, from 1972-06-30 forward. -/
def leapDates : List (Nat × Nat × Nat) :=
  [(1972, 6, 30), (1972, 12, 31), (1973, 12, 31), (1974, 12, 31), (1975, 12, 31),
   (1976, 12, 31), (1977, 12, 31), (1978, 12, 31), (1979, 12, 31), (1981, 6, 30),
   (1982, 6, 30), (1983, 6, 30), (1985, 6, 30), (1987, 12, 31), (1989, 12, 31),
   (1990, 12, 31), (1992, 6, 30), (1993, 6, 30), (1994, 6, 30), (1995, 12, 31),
   (1997, 6, 30), (1998, 12, 31), (2005, 12, 31), (2008, 12, 31), (2012, 6, 30),
   (2015, 6, 30), (2016, 12, 31)]

/-- Modelled from the spec: the parsed date is on the leap-second list.
With a year the full date must be listed; without one, the month/day pair
must appear on the list; a format without a date component leaves the
moment unconstrained. -/
def leapDateOk (dt : DTVal) : Bool :=
  match dt.month, dt.day with
  | some m, some d =>
    match dt.year with
    | some y => leapDates.contains (y, m, d)
    | none => (leapDates.map fun t => (t.2.1, t.2.2)).contains (m, d)
  | _, _ => true

/-- Modelled from the spec: semantic checks of the parsed components.
Months are 1–12, days bounded by the month length, hours by 23, minutes by
59; a second of 60 is admitted only with `$leapSecond` at the moment
`23:59:60` on a listed date. -/
def dtCheck (leapSec : Bool) (dt : DTVal) : Bool :=
  (match dt.month with | some m => decide (1 ≤ m ∧ m ≤ 12) | none => true) &&
  (match dt.day with
   | some d =>
     decide (1 ≤ d) &&
       decide (d ≤ monthDays dt.year (match dt.month with | some m => m | none => 1))
   | none => true) &&
  (match dt.hour with | some h => decide (h ≤ 23) | none => true) &&
  (match dt.minute with | some mi => decide (mi ≤ 59) | none => true) &&
  (match dt.second with
   | some s =>
     if s ≤ 59 then true
     else
       decide (s = 60) && leapSec && (dt.hour == some 23) && (dt.minute == some 59) &&
         leapDateOk dt
   | none => true)

/-- Modelled from the spec: validation of a date/time string against a
format with a `$leapSecond` setting. -/
def validDT (fmt : List FTok) (leapSec : Bool) (s : String) : Bool :=
  match parseF fmt s.data emptyDT with
  | some dt => dtCheck leapSec dt
  | none => false

/-! ## Concrete schemas and inputs from the claims -/

/-- A mandatory field with no directives beyond its child schema. -/
def req (n : String) (s : Sch) : String × FldA × Sch := (n, ⟨false, none⟩, s)

/-- The schema of the error-accumulation scenario:
`{a: bool, b: int, c: double, d: string, nested: {a: int 5..10, b: int?}}`. -/
def schC1 : Sch := .sobj false none none
  [req "a" (.sbool false), req "b" (.sint false none none), req "c" (.sdouble false),
   req "d" (.sstr false),
   req "nested" (.sobj false none none
     [req "a" (.sint false (some 5) (some 10)), req "b" (.sint true none none)])]

/-- The invalid input of the error-accumulation scenario. -/
def dataC1 : Val := .vobj
  [("a", .vstr "invalid"), ("b", .vstr "invalid"), ("c", .vstr "invalid"),
   ("d", .vnum 0),
   ("nested", .vobj [("a", .vstr "invalid"), ("b", .vstr "invalid")])]

/-- The delta-mode schema `{a: bool, b: int, nested: {c: string, d: string[]}}`. -/
def schC2a : Sch := .sobj false none none
  [req "a" (.sbool false), req "b" (.sint false none none),
   req "nested" (.sobj false none none
     [req "c" (.sstr false), req "d" (.sarr false (.sstr false))])]

/-- The same schema with `$delta: false` on the nested node. -/
def schC2b : Sch := .sobj false none none
  [req "a" (.sbool false), req "b" (.sint false none none),
   req "nested" (.sobj false (some false) none
     [req "c" (.sstr false), req "d" (.sarr false (.sstr false))])]

/-- The access-control schema: root `$w: "user|admin"`, nested fields with
the various `$w` expressions exercised by the write-inherit test. -/
def schC3 : Sch := .sobj false none (some "user|admin")
  [req "nested" (.sobj false none none
    [("a", ⟨false, none⟩, .sint false none none),
     ("b", ⟨false, some "inherit"⟩, .sint false none none),
     ("onlyUser", ⟨false, some "user"⟩, .sint false none none),
     ("onlyAdmin", ⟨false, some "admin"⟩, .sint false none none),
     ("inheritUser", ⟨false, some "user|inherit"⟩, .sint false none none),
     ("inheritAdmin", ⟨false, some "admin|inherit"⟩, .sint false none none),
     ("none", ⟨false, some "none"⟩, .sint false none none)])]

/-- An optional string field. -/
def optStr (n : String) : String × FldA × Sch := (n, ⟨true, none⟩, .sstr false)

/-- The schema whose field names collide with `Object.prototype` members. -/
def schC10 : Sch := .sobj false none none
  [optStr "constructor", optStr "hasOwnProperty", optStr "toString",
   optStr "propertyIsEnumerable", optStr "__defineGetter__"]

/-- The input supplying a string for each of the five special fields. -/
def dataC10 : Val := .vobj
  [("constructor", .vstr "1"), ("hasOwnProperty", .vstr "2"), ("toString", .vstr "3"),
   ("propertyIsEnumerable", .vstr "4"), ("__defineGetter__", .vstr "5")]

/-- The `$unique` example `{a: "ac|ad", b: true, c: "ac", d: "ad"}`. -/
def def3flds : List UFld :=
  [⟨"a", false, .groupU "ac|ad"⟩, ⟨"b", false, .flagU true⟩,
   ⟨"c", false, .groupU "ac"⟩, ⟨"d", false, .groupU "ad"⟩]

/-- The `$unique` example with primary keys:
`{userId: pk + "name|id", tagId: pk + "id", tagName: "name"}`. -/
def def2flds : List UFld :=
  [⟨"userId", true, .groupU "name|id"⟩, ⟨"tagId", true, .groupU "id"⟩,
   ⟨"tagName", false, .groupU "name"⟩]

/-- The animal enum definition of the enum test (insertion order). -/
def animalDefs : List (String × Int) :=
  [("Horse", 0), ("Dog", 1), ("Cat", 2), ("Mouse", 4), ("Hamster", 3)]

/-- The colliding-value enum definition of the enum test. -/
def typeIdDefs : List (String × Int) :=
  [("String", 1299), ("Number", 3345), ("Object", 6563), ("Array", 6563)]

/-- The base field list of the extend-schema tests: `{a: bool, b: int}`. -/
def fldsC7 : List (String × FldA × Sch) :=
  [req "a" (.sbool false), req "b" (.sint false none none)]

/-- The field added and then deleted in the extend round-trip:
`c: string`. -/
def fldC7 : String × FldA × Sch := req "c" (.sstr false)

/-- A reference-rich value mirroring the input of the clone test. -/
def rvTest : RVal := .robj 0
  (.fcons "a" (.rbool true)
    (.fcons "c" (.rnum 1)
      (.fcons "d" (.rstr "string")
        (.fcons "e" (.rarr 1 (.rcons (.robj 2 .fnil)
            (.rcons (.rarr 3 .rnil) (.rcons (.rnum 7) .rnil)))) .fnil))))

/-! ## Big-integer strings: comparison agrees with integer value -/

theorem isDig_bounds {c : Char} (h : isDig c = true) : 48 ≤ c.toNat ∧ c.toNat ≤ 57 := by
  simpa [isDig] using h

theorem allDigits_cons {c : Char} {cs : List Char} (h : allDigits (c :: cs) = true) :
    isDig c = true ∧ allDigits cs = true := by
  simpa [allDigits, Bool.and_eq_true] using h

theorem digitsVal_lt {l : List Char} (h : allDigits l = true) :
    digitsVal l < 10 ^ l.length := by
  induction l with
  | nil => simp [digitsVal]
  | cons c cs ih =>
    obtain ⟨h1, h2⟩ := allDigits_cons h
    have hd := isDig_bounds h1
    have hv := ih h2
    have hmul : (c.toNat - 48) * 10 ^ cs.length ≤ 9 * 10 ^ cs.length :=
      Nat.mul_le_mul_right _ (by omega)
    have hexp : (10 : Nat) ^ (cs.length + 1) = 10 * 10 ^ cs.length := by ring
    simp only [digitsVal, List.length_cons]
    omega

theorem le_digitsVal {c : Char} (cs : List Char) (h1 : isDig c = true) (h2 : c.toNat ≠ 48) :
    10 ^ cs.length ≤ digitsVal (c :: cs) := by
  have hd := isDig_bounds h1
  have hmul : 1 * 10 ^ cs.length ≤ (c.toNat - 48) * 10 ^ cs.length :=
    Nat.mul_le_mul_right _ (by omega)
  simp only [digitsVal]
  omega

theorem lexCmp_tri (x : List Char) : ∀ y, lexCmp x y = -1 ∨ lexCmp x y = 0 ∨ lexCmp x y = 1 := by
  induction x with
  | nil => intro y; cases y <;> simp [lexCmp]
  | cons a as ih =>
    intro y
    cases y with
    | nil => simp [lexCmp]
    | cons b bs =>
      by_cases h1 : a.toNat < b.toNat
      · simp [lexCmp, h1]
      · by_cases h2 : b.toNat < a.toNat
        · simp [lexCmp, h1, h2]
        · simpa [lexCmp, h1, h2] using ih bs

theorem lexCmp_spec {x : List Char} : ∀ {y : List Char}, x.length = y.length →
    allDigits x = true → allDigits y = true →
    (lexCmp x y = -1 → digitsVal x < digitsVal y) ∧
      (lexCmp x y = 0 → digitsVal x = digitsVal y) ∧
      (lexCmp x y = 1 → digitsVal y < digitsVal x) := by
  induction x with
  | nil =>
    intro y hlen hx hy
    cases y with
    | nil => simp [lexCmp]
    | cons b bs => simp at hlen
  | cons a as ih =>
    intro y hlen hx hy
    cases y with
    | nil => simp at hlen
    | cons b bs =>
      have hlen2 : as.length = bs.length := by simpa using hlen
      obtain ⟨ha, has⟩ := allDigits_cons hx
      obtain ⟨hb, hbs⟩ := allDigits_cons hy
      have hda := isDig_bounds ha
      have hdb := isDig_bounds hb
      have hva := digitsVal_lt has
      have hvb := digitsVal_lt hbs
      rw [hlen2] at hva
      by_cases h1 : a.toNat < b.toNat
      · refine ⟨fun _ => ?_, fun h0 => by simp [lexCmp, h1] at h0,
          fun h2 => by simp [lexCmp, h1] at h2⟩
        simp only [digitsVal]
        rw [hlen2]
        have hmul : (a.toNat - 48 + 1) * 10 ^ bs.length ≤ (b.toNat - 48) * 10 ^ bs.length :=
          Nat.mul_le_mul_right _ (by omega)
        have hexp : (a.toNat - 48 + 1) * 10 ^ bs.length =
            (a.toNat - 48) * 10 ^ bs.length + 10 ^ bs.length := by ring
        omega
      · by_cases h2 : b.toNat < a.toNat
        · refine ⟨fun h0 => by simp [lexCmp, h1, h2] at h0,
            fun h0 => by simp [lexCmp, h1, h2] at h0, fun _ => ?_⟩
          have hvb2 : digitsVal bs < 10 ^ as.length := by rw [hlen2]; exact hvb
          simp only [digitsVal]
          rw [hlen2]
          have hmul : (b.toNat - 48 + 1) * 10 ^ bs.length ≤ (a.toNat - 48) * 10 ^ bs.length :=
            Nat.mul_le_mul_right _ (by omega)
          have hexp : (b.toNat - 48 + 1) * 10 ^ bs.length =
              (b.toNat - 48) * 10 ^ bs.length + 10 ^ bs.length := by ring
          omega
        · have heq : a.toNat = b.toNat := by omega
          have hrec := ih hlen2 has hbs
          have hstep : lexCmp (a :: as) (b :: bs) = lexCmp as bs := by
            simp [lexCmp, h1, h2]
          rw [hstep]
          simp only [digitsVal]
          rw [hlen2, heq]
          exact ⟨fun h => by have := hrec.1 h; omega,
            fun h => by have := hrec.2.1 h; omega,
            fun h => by have := hrec.2.2 h; omega⟩

theorem isPos_cases {l : List Char} (h : isPosChars l = true) :
    (∃ c, l = [c] ∧ c.toNat = 48) ∨ isNonzeroPos l = true := by
  cases l with
  | nil => simp [isPosChars] at h
  | cons c cs =>
    have h2 : (c.toNat = 48 ∧ cs = []) ∨ isNonzeroPos (c :: cs) = true := by
      simpa [isPosChars, Bool.or_eq_true, Bool.and_eq_true, List.isEmpty_iff] using h
    rcases h2 with ⟨hc, hcs⟩ | h1
    · exact Or.inl ⟨c, by rw [hcs], hc⟩
    · exact Or.inr h1

theorem nonzero_isPos {l : List Char} (h : isNonzeroPos l = true) : isPosChars l = true := by
  cases l with
  | nil => simp [isNonzeroPos] at h
  | cons c cs => simp [isPosChars, h]

theorem nonzero_parts {l : List Char} (h : isNonzeroPos l = true) :
    ∃ c cs, l = c :: cs ∧ isDig c = true ∧ c.toNat ≠ 48 ∧ allDigits (c :: cs) = true := by
  cases l with
  | nil => simp [isNonzeroPos] at h
  | cons c cs =>
    refine ⟨c, cs, rfl, ?_⟩
    simpa [isNonzeroPos, Bool.and_eq_true, and_assoc] using h

theorem isPos_allDigits {l : List Char} (h : isPosChars l = true) : allDigits l = true := by
  rcases isPos_cases h with ⟨c, hl, hc⟩ | h1
  · rw [hl]; simp [allDigits, isDig, hc]
  · obtain ⟨c, cs, hl, _, _, hall⟩ := nonzero_parts h1
    rw [hl]; exact hall

theorem one_le_nonzero {l : List Char} (h : isNonzeroPos l = true) : 1 ≤ digitsVal l := by
  obtain ⟨c, cs, hl, hd, hne, _⟩ := nonzero_parts h
  subst hl
  have := le_digitsVal cs hd hne
  have hpow : 0 < 10 ^ cs.length := pow_pos (by norm_num) _
  omega

theorem cmpMag_lt {x y : List Char} (hx : isPosChars x = true) (hy : isPosChars y = true)
    (h : cmpMag x y = -1) : digitsVal x < digitsVal y := by
  unfold cmpMag at h
  by_cases hl : x.length < y.length
  · rcases isPos_cases hy with ⟨c, hy1, _⟩ | h1
    · rw [hy1] at hl
      have hl1 : x.length < 1 := by simpa using hl
      have : x = [] := List.length_eq_zero.mp (by omega)
      subst this
      simp [isPosChars] at hx
    · obtain ⟨c, cs, hyl, hd, hne, _⟩ := nonzero_parts h1
      have hva := digitsVal_lt (isPos_allDigits hx)
      have hvy : 10 ^ cs.length ≤ digitsVal y := by rw [hyl]; exact le_digitsVal cs hd hne
      have hys : y.length = cs.length + 1 := by rw [hyl]; simp
      have hpow : 10 ^ x.length ≤ 10 ^ cs.length :=
        Nat.pow_le_pow_right (by norm_num) (by omega)
      omega
  · by_cases hl2 : y.length < x.length
    · simp [hl, hl2] at h
    · have hlen : x.length = y.length := by omega
      rw [if_neg hl, if_neg hl2] at h
      exact (lexCmp_spec hlen (isPos_allDigits hx) (isPos_allDigits hy)).1 h

theorem cmpMag_gt {x y : List Char} (hx : isPosChars x = true) (hy : isPosChars y = true)
    (h : cmpMag x y = 1) : digitsVal y < digitsVal x := by
  unfold cmpMag at h
  by_cases hl : x.length < y.length
  · simp [hl] at h
  · by_cases hl2 : y.length < x.length
    · rcases isPos_cases hx with ⟨c, hx1, _⟩ | h1
      · rw [hx1] at hl2
        have hl1 : y.length < 1 := by simpa using hl2
        have : y = [] := List.length_eq_zero.mp (by omega)
        subst this
        simp [isPosChars] at hy
      · obtain ⟨c, cs, hxl, hd, hne, _⟩ := nonzero_parts h1
        have hvb := digitsVal_lt (isPos_allDigits hy)
        have hvx : 10 ^ cs.length ≤ digitsVal x := by rw [hxl]; exact le_digitsVal cs hd hne
        have hxs : x.length = cs.length + 1 := by rw [hxl]; simp
        have hpow : 10 ^ y.length ≤ 10 ^ cs.length :=
          Nat.pow_le_pow_right (by norm_num) (by omega)
        omega
    · have hlen : x.length = y.length := by omega
      rw [if_neg hl, if_neg hl2] at h
      exact (lexCmp_spec hlen (isPos_allDigits hx) (isPos_allDigits hy)).2.2 h

theorem cmpMag_eq {x y : List Char} (hx : isPosChars x = true) (hy : isPosChars y = true)
    (h : cmpMag x y = 0) : digitsVal x = digitsVal y := by
  unfold cmpMag at h
  by_cases hl : x.length < y.length
  · simp [hl] at h
  · by_cases hl2 : y.length < x.length
    · simp [hl, hl2] at h
    · have hlen : x.length = y.length := by omega
      rw [if_neg hl, if_neg hl2] at h
      exact (lexCmp_spec hlen (isPos_allDigits hx) (isPos_allDigits hy)).2.1 h

theorem cmpMag_tri (x y : List Char) : cmpMag x y = -1 ∨ cmpMag x y = 0 ∨ cmpMag x y = 1 := by
  unfold cmpMag
  by_cases hl : x.length < y.length
  · simp [hl]
  · by_cases hl2 : y.length < x.length
    · simp [hl, hl2]
    · rw [if_neg hl, if_neg hl2]; exact lexCmp_tri x y

theorem cmpMag_spec {x y : List Char} (hx : isPosChars x = true) (hy : isPosChars y = true) :
    (cmpMag x y = -1 ↔ digitsVal x < digitsVal y) ∧
      (cmpMag x y = 0 ↔ digitsVal x = digitsVal y) ∧
      (cmpMag x y = 1 ↔ digitsVal y < digitsVal x) := by
  have f1 := @cmpMag_lt x y hx hy
  have f0 := @cmpMag_eq x y hx hy
  have f2 := @cmpMag_gt x y hx hy
  have tri := cmpMag_tri x y
  refine ⟨⟨f1, fun hv => ?_⟩, ⟨f0, fun hv => ?_⟩, ⟨f2, fun hv => ?_⟩⟩
  · rcases tri with h | h | h
    · exact h
    · exact absurd (f0 h) (by omega)
    · exact absurd (f2 h) (by omega)
  · rcases tri with h | h | h
    · exact absurd (f1 h) (by omega)
    · exact h
    · exact absurd (f2 h) (by omega)
  · rcases tri with h | h | h
    · exact absurd (f1 h) (by omega)
    · exact absurd (f0 h) (by omega)
    · exact h

theorem compare_spec {x y : List Char} (hx : isBigIntChars x = true)
    (hy : isBigIntChars y = true) :
    (compareBigIntChars x y = -1 ↔ strToIntChars x < strToIntChars y) ∧
      (compareBigIntChars x y = 0 ↔ strToIntChars x = strToIntChars y) ∧
      (compareBigIntChars x y = 1 ↔ strToIntChars y < strToIntChars x) := by
  unfold isBigIntChars at hx hy
  unfold compareBigIntChars strToIntChars
  by_cases hnx : isNeg x = true
  · rw [if_pos hnx] at hx ⊢
    rw [if_pos hnx]
    by_cases hny : isNeg y = true
    · rw [if_pos hny] at hy ⊢
      rw [if_pos hny]
      obtain ⟨s1, s0, s2⟩ := cmpMag_spec (nonzero_isPos hx) (nonzero_isPos hy)
      have tri := cmpMag_tri (x.drop 1) (y.drop 1)
      refine ⟨Iff.intro (fun hc => ?_) (fun hc => ?_),
        Iff.intro (fun hc => ?_) (fun hc => ?_), Iff.intro (fun hc => ?_) (fun hc => ?_)⟩
      · have h2 := s2.mp (by omega)
        omega
      · have h2 := s2.mpr (by omega)
        omega
      · have h2 := s0.mp (by omega)
        omega
      · have h2 := s0.mpr (by omega)
        omega
      · have h2 := s1.mp (by omega)
        omega
      · have h2 := s1.mpr (by omega)
        omega
    · rw [if_neg hny] at hy ⊢
      rw [if_neg hny]
      have h1 := one_le_nonzero hx
      refine ⟨?_, ?_, ?_⟩ <;> constructor <;> intro h <;> omega
  · rw [if_neg hnx] at hx ⊢
    rw [if_neg hnx]
    by_cases hny : isNeg y = true
    · rw [if_pos hny] at hy ⊢
      rw [if_pos hny]
      have h1 := one_le_nonzero hy
      refine ⟨?_, ?_, ?_⟩ <;> constructor <;> intro h <;> omega
    · rw [if_neg hny] at hy ⊢
      rw [if_neg hny]
      obtain ⟨s1, s0, s2⟩ := cmpMag_spec hx hy
      have tri := cmpMag_tri x y
      refine ⟨Iff.intro (fun hc => ?_) (fun hc => ?_),
        Iff.intro (fun hc => ?_) (fun hc => ?_), Iff.intro (fun hc => ?_) (fun hc => ?_)⟩
      · have h2 := s1.mp (by omega)
        omega
      · have h2 := s1.mpr (by omega)
        omega
      · have h2 := s0.mp (by omega)
        omega
      · have h2 := s0.mpr (by omega)
        omega
      · have h2 := s2.mp (by omega)
        omega
      · have h2 := s2.mpr (by omega)
        omega

theorem compare_tri (x y : List Char) :
    compareBigIntChars x y = -1 ∨ compareBigIntChars x y = 0 ∨ compareBigIntChars x y = 1 := by
  unfold compareBigIntChars
  by_cases hnx : isNeg x = true
  · rw [if_pos hnx]
    by_cases hny : isNeg y = true
    · rw [if_pos hny]
      rcases cmpMag_tri (x.drop 1) (y.drop 1) with h | h | h <;> omega
    · rw [if_neg hny]
      exact Or.inl rfl
  · rw [if_neg hnx]
    by_cases hny : isNeg y = true
    · rw [if_pos hny]
      exact Or.inr (Or.inr rfl)
    · rw [if_neg hny]
      exact cmpMag_tri x y

theorem min64_facts : isBigInt kInt64Min = true ∧ strToInt kInt64Min = -(2 ^ 63) := by decide

theorem max64_facts : isBigInt kInt64Max = true ∧ strToInt kInt64Max = 2 ^ 63 - 1 := by decide

theorem validInt64_vstr {s : String} :
    validInt64 (.vstr s) = true ↔
      isBigInt s = true ∧ -(2 ^ 63) ≤ strToInt s ∧ strToInt s ≤ 2 ^ 63 - 1 := by
  constructor
  · intro h
    have h2 : isBigInt s = true ∧ 0 ≤ compareBigInt s kInt64Min ∧ compareBigInt s kInt64Max ≤ 0 := by
      simpa [validInt64, Bool.and_eq_true, and_assoc] using h
    obtain ⟨hbig, hlo, hhi⟩ := h2
    obtain ⟨slo1, slo0, slo2⟩ := compare_spec (x := s.data) (y := kInt64Min.data) hbig min64_facts.1
    obtain ⟨shi1, shi0, shi2⟩ := compare_spec (x := s.data) (y := kInt64Max.data) hbig max64_facts.1
    have trilo := compare_tri s.data kInt64Min.data
    have trihi := compare_tri s.data kInt64Max.data
    refine ⟨hbig, ?_, ?_⟩
    · rcases trilo with h3 | h3 | h3
      · exfalso
        rw [show compareBigIntChars s.data kInt64Min.data = compareBigInt s kInt64Min from rfl] at h3
        omega
      · have := slo0.mp h3
        rw [show strToIntChars kInt64Min.data = strToInt kInt64Min from rfl] at this
        rw [show strToIntChars s.data = strToInt s from rfl] at this
        have hm := min64_facts.2
        omega
      · have := slo2.mp h3
        rw [show strToIntChars kInt64Min.data = strToInt kInt64Min from rfl] at this
        rw [show strToIntChars s.data = strToInt s from rfl] at this
        have hm := min64_facts.2
        omega
    · rcases trihi with h3 | h3 | h3
      · have := shi1.mp h3
        rw [show strToIntChars kInt64Max.data = strToInt kInt64Max from rfl] at this
        rw [show strToIntChars s.data = strToInt s from rfl] at this
        have hm := max64_facts.2
        omega
      · have := shi0.mp h3
        rw [show strToIntChars kInt64Max.data = strToInt kInt64Max from rfl] at this
        rw [show strToIntChars s.data = strToInt s from rfl] at this
        have hm := max64_facts.2
        omega
      · exfalso
        rw [show compareBigIntChars s.data kInt64Max.data = compareBigInt s kInt64Max from rfl] at h3
        omega
  · rintro ⟨hbig, hlo, hhi⟩
    obtain ⟨slo1, slo0, slo2⟩ := compare_spec (x := s.data) (y := kInt64Min.data) hbig min64_facts.1
    obtain ⟨shi1, shi0, shi2⟩ := compare_spec (x := s.data) (y := kInt64Max.data) hbig max64_facts.1
    have trilo := compare_tri s.data kInt64Min.data
    have trihi := compare_tri s.data kInt64Max.data
    have hvlo : ¬ strToIntChars s.data < strToIntChars kInt64Min.data := by
      rw [show strToIntChars kInt64Min.data = strToInt kInt64Min from rfl,
        show strToIntChars s.data = strToInt s from rfl]
      have hm := min64_facts.2
      omega
    have hvhi : ¬ strToIntChars kInt64Max.data < strToIntChars s.data := by
      rw [show strToIntChars kInt64Max.data = strToInt kInt64Max from rfl,
        show strToIntChars s.data = strToInt s from rfl]
      have hm := max64_facts.2
      omega
    have hlo2 : 0 ≤ compareBigInt s kInt64Min := by
      rcases trilo with h3 | h3 | h3
      · exact absurd (slo1.mp h3) hvlo
      · rw [show compareBigIntChars s.data kInt64Min.data = compareBigInt s kInt64Min from rfl] at h3
        omega
      · rw [show compareBigIntChars s.data kInt64Min.data = compareBigInt s kInt64Min from rfl] at h3
        omega
    have hhi2 : compareBigInt s kInt64Max ≤ 0 := by
      rcases trihi with h3 | h3 | h3
      · rw [show compareBigIntChars s.data kInt64Max.data = compareBigInt s kInt64Max from rfl] at h3
        omega
      · rw [show compareBigIntChars s.data kInt64Max.data = compareBigInt s kInt64Max from rfl] at h3
        omega
      · exact absurd (shi2.mp h3) hvhi
    simp [validInt64, Bool.and_eq_true, hbig, hlo2, hhi2]

theorem validInt64_iff (v : Val) :
    validInt64 v = true ↔
      ∃ s, v = .vstr s ∧ isBigInt s = true ∧ -(2 ^ 63) ≤ strToInt s ∧ strToInt s ≤ 2 ^ 63 - 1 := by
  cases v with
  | vstr s =>
    rw [validInt64_vstr]
    constructor
    · intro h
      exact ⟨s, rfl, h⟩
    · rintro ⟨t, ht, h⟩
      cases ht
      exact h
  | vnull => simp [validInt64]
  | vbool b => simp [validInt64]
  | vnum n => simp [validInt64]
  | varr xs => simp [validInt64]
  | vobj fs => simp [validInt64]

theorem passes_int64 (n : Nat) (o : Opts) (a : Option (List String)) (v : Val) :
    passes (n + 1) v (Sch.sint64 false) o a = validInt64 v := by
  cases v with
  | vnull => rfl
  | vbool b =>
    show (if validInt64 (Val.vbool b) then ([] : List Err) else [⟨"InvalidValue", ""⟩]).isEmpty =
      validInt64 (Val.vbool b)
    cases h : validInt64 (Val.vbool b) <;> simp [h]
  | vnum k =>
    show (if validInt64 (Val.vnum k) then ([] : List Err) else [⟨"InvalidValue", ""⟩]).isEmpty =
      validInt64 (Val.vnum k)
    cases h : validInt64 (Val.vnum k) <;> simp [h]
  | vstr s =>
    show (if validInt64 (Val.vstr s) then ([] : List Err) else [⟨"InvalidValue", ""⟩]).isEmpty =
      validInt64 (Val.vstr s)
    cases h : validInt64 (Val.vstr s) <;> simp [h]
  | varr xs =>
    show (if validInt64 (Val.varr xs) then ([] : List Err) else [⟨"InvalidValue", ""⟩]).isEmpty =
      validInt64 (Val.varr xs)
    cases h : validInt64 (Val.varr xs) <;> simp [h]
  | vobj fs =>
    show (if validInt64 (Val.vobj fs) then ([] : List Err) else [⟨"InvalidValue", ""⟩]).isEmpty =
      validInt64 (Val.vobj fs)
    cases h : validInt64 (Val.vobj fs) <;> simp [h]

/-- Claim C1: with `kAccumulateErrors`, `process` collects diagnostics
instead of failing fast and throws one `SchemaError` carrying, for the
schema and input of the accumulation scenario, exactly the six diagnostics
`ExpectedBoolean@a`, `ExpectedNumber@b`, `ExpectedNumber@c`,
`ExpectedString@d`, `ExpectedNumber@nested.a`, `ExpectedNumber@nested.b` in
depth-first declaration order; without the flag the same input throws only
the first diagnostic. -/
theorem claim_C1_accumulateErrors :
    process 5 dataC1 schC1 kAccum none = .err
      [⟨"ExpectedBoolean", "a"⟩, ⟨"ExpectedNumber", "b"⟩, ⟨"ExpectedNumber", "c"⟩,
       ⟨"ExpectedString", "d"⟩, ⟨"ExpectedNumber", "nested.a"⟩,
       ⟨"ExpectedNumber", "nested.b"⟩] ∧
    process 5 dataC1 schC1 kNoOpts none = .err [⟨"ExpectedBoolean", "a"⟩] :=
  ⟨rfl, rfl⟩

/-- Claim C2: under `kDeltaMode`, missing required fields are admitted at
every nesting level, except inside a node carrying `$delta: false`, where
all required fields of that node must again be present; unknown
properties are still rejected, so `{a: true}` passes while
`{invalid: true}` fails. -/
theorem claim_C2_deltaMode :
    passes 5 (.vobj [("a", .vbool true)]) schC2a kDelta none = true ∧
    passes 5 (.vobj [("b", .vnum 1234), ("nested", .vobj [])]) schC2a kDelta none = true ∧
    passes 5 (.vobj [("b", .vnum 1234),
      ("nested", .vobj [("d", .varr [.vstr "qqq"])])]) schC2a kDelta none = true ∧
    passes 5 (.vobj [("invalid", .vbool true)]) schC2a kDelta none = false ∧
    passes 5 (.vobj [("nested", .vobj [("invalid", .vbool true)])]) schC2a kDelta none = false ∧
    passes 5 (.vobj [("a", .vbool true)]) schC2a kNoOpts none = false ∧
    passes 5 (.vobj [("a", .vbool true)]) schC2b kDelta none = true ∧
    passes 5 (.vobj [("a", .vbool true), ("nested", .vobj [])]) schC2b kDelta none = false ∧
    passes 5 (.vobj [("a", .vbool true),
      ("nested", .vobj [("c", .vstr "exm")])]) schC2b kDelta none = false ∧
    passes 5 (.vobj [("a", .vbool true),
      ("nested", .vobj [("c", .vstr "exm"), ("d", .varr [.vstr "qqq"])])]) schC2b kDelta none
      = true := by
  decide

/-- Claim C3: with access checking enabled, a field is writable iff its
effective `$w` tokens (with `inherit` spliced from the nearest ancestor,
the root falling back to `*`) are satisfied by the role set.  A field with
`$w "none"` is writable by no role set whatever the inherited tokens; with
root `$w "user|admin"`, the nested `$w "admin|inherit"` field resolves to
`{admin, user, admin}` and is writable by `{user}` alone, shown both on the
`writable` predicate and on `process` in delta mode; the `$w "none"` field
is rejected for every concrete role set of the test. -/
theorem claim_C3_accessInherit :
    (∀ inh roles : List String, writable inh (some "none") roles = false) ∧
    writable (effW ["*"] (some "user|admin")) (some "admin|inherit") ["user"] = true ∧
    writable (effW ["*"] (some "user|admin")) (some "admin|inherit") ["admin"] = true ∧
    writable (effW ["*"] (some "user|admin")) (some "admin|inherit") [] = false ∧
    passes 5 (.vobj [("nested", .vobj [("inheritAdmin", .vnum 3)])]) schC3 kDelta
      (some ["user"]) = true ∧
    passes 5 (.vobj [("nested", .vobj [("none", .vnum 5)])]) schC3 kDelta (some []) = false ∧
    passes 5 (.vobj [("nested", .vobj [("none", .vnum 5)])]) schC3 kDelta
      (some ["user"]) = false ∧
    passes 5 (.vobj [("nested", .vobj [("none", .vnum 5)])]) schC3 kDelta
      (some ["admin"]) = false ∧
    passes 5 (.vobj [("nested", .vobj [("none", .vnum 5)])]) schC3 kDelta
      (some ["user", "admin"]) = false ∧
    passes 5 (.vobj [("nested", .vobj [("none", .vnum 5)])]) schC3 kDelta none = true ∧
    passes 5 (.vobj [("nested", .vobj [("a", .vnum 0), ("b", .vnum 1)])]) schC3 kDelta
      (some ["user"]) = true ∧
    passes 5 (.vobj [("nested", .vobj [("a", .vnum 0), ("b", .vnum 1)])]) schC3 kDelta
      (some ["admin"]) = true ∧
    passes 5 (.vobj [("nested", .vobj [("a", .vnum 0), ("b", .vnum 1)])]) schC3 kDelta
      (some []) = false := by
  refine ⟨fun inh roles => rfl, ?_⟩
  decide

/-- Claim C4 counterexample: the string `"-0"` matches the regex
`-?(0|[1-9][0-9]*)` stated by the claim and its integer value 0 lies within
the signed 64-bit bounds, yet `process` with the `int64` type rejects
it. -/
theorem claim_C4_counterexample :
    specBigIntPattern "-0" = true ∧ strToInt "-0" = 0 ∧
      ((-(2 ^ 63) : Int) ≤ 0 ∧ (0 : Int) ≤ 2 ^ 63 - 1) ∧
      passes 1 (.vstr "-0") (Sch.sint64 false) kNoOpts none = false := by
  decide

/-- Claim C4 (amended): for every input value, `process` with the `int64`
type succeeds iff the value is a string matching `0|-?[1-9][0-9]*` (the
minus sign must be followed by a nonzero leading digit, so `"-0"` is
rejected) whose integer value lies within the signed 64-bit bounds; in
particular `"9223372036854775807"` passes while `"9223372036854775808"`,
leading zeros, surrounding whitespace and non-strings fail. -/
theorem claim_C4_int64 :
    (∀ (fuel : Nat) (v : Val) (o : Opts),
      passes (fuel + 1) v (Sch.sint64 false) o none = true ↔
        ∃ s, v = .vstr s ∧ isBigInt s = true ∧
          -(2 ^ 63) ≤ strToInt s ∧ strToInt s ≤ 2 ^ 63 - 1) ∧
    passes 1 (.vstr "9223372036854775807") (Sch.sint64 false) kNoOpts none = true ∧
    passes 1 (.vstr "9223372036854775808") (Sch.sint64 false) kNoOpts none = false ∧
    passes 1 (.vstr "-9223372036854775808") (Sch.sint64 false) kNoOpts none = true ∧
    passes 1 (.vstr "-9223372036854775809") (Sch.sint64 false) kNoOpts none = false ∧
    passes 1 (.vstr "00") (Sch.sint64 false) kNoOpts none = false ∧
    passes 1 (.vstr " 0") (Sch.sint64 false) kNoOpts none = false ∧
    passes 1 (.vstr "0 ") (Sch.sint64 false) kNoOpts none = false ∧
    passes 1 (.vnum 0) (Sch.sint64 false) kNoOpts none = false ∧
    passes 1 (.vbool true) (Sch.sint64 false) kNoOpts none = false := by
  refine ⟨fun fuel v o => ?_, by decide⟩
  rw [passes_int64]
  exact validInt64_iff v

/-- Claim C5: the `$uniqueArray` derivation — plain `$unique` forms a
singleton group, strings name groups with `|` separating several, and
primary keys contribute the all-PK group plus the PK Cartesian expansion,
deduplicated with sorted tuples — yields, as sorted tuple sets,
`{(a,c), (a,d), (b)}` for the `{a: "ac|ad", b: true, c: "ac", d: "ad"}`
schema and `{(tagId,userId), (tagName,userId)}` for the primary-key
schema. -/
theorem claim_C5_uniqueArray :
    sortTuples (uniqueArray def3flds) = [["a", "c"], ["a", "d"], ["b"]] ∧
    sortTuples (uniqueArray def2flds) = [["tagId", "userId"], ["tagName", "userId"]] := by
  decide

/-- Claim C6: with `$leapSecond: true`, a second of 60 is admitted only at
the moment `23:59:60` and only on the closed list of historical
leap-second dates starting 1972-06-30: the three listed date-times pass
while 1971, 1973-06-30 and 2100 fail; for the year-less `MM-DD HH:mm:ss`
format exactly the month-ends on the list (06-30, 12-31) admit `23:59:60`
while every other month-end fails; and in general a passing parse with
second 60 forces hour 23, minute 59 and a listed date. -/
theorem claim_C6_leapSecond :
    (validDT fmtDateTime true "1972-06-30 23:59:60" = true ∧
     validDT fmtDateTime true "1972-12-31 23:59:60" = true ∧
     validDT fmtDateTime true "2012-06-30 23:59:60" = true ∧
     validDT fmtDateTime true "1971-06-30 23:59:60" = false ∧
     validDT fmtDateTime true "1973-06-30 23:59:60" = false ∧
     validDT fmtDateTime true "2100-06-30 23:59:60" = false ∧
     validDT fmtMMDD true "06-30 23:59:60" = true ∧
     validDT fmtMMDD true "12-31 23:59:60" = true ∧
     validDT fmtMMDD true "01-31 23:59:60" = false ∧
     validDT fmtMMDD true "02-28 23:59:60" = false ∧
     validDT fmtMMDD true "02-29 23:59:60" = false ∧
     validDT fmtMMDD true "03-31 23:59:60" = false ∧
     validDT fmtMMDD true "04-30 23:59:60" = false ∧
     validDT fmtMMDD true "05-31 23:59:60" = false ∧
     validDT fmtMMDD true "07-31 23:59:60" = false ∧
     validDT fmtMMDD true "08-31 23:59:60" = false ∧
     validDT fmtMMDD true "09-30 23:59:60" = false ∧
     validDT fmtMMDD true "10-31 23:59:60" = false ∧
     validDT fmtMMDD true "11-30 23:59:60" = false ∧
     validDT fmtDateTime true "1972-06-30 22:59:60" = false ∧
     validDT fmtDateTime true "1972-06-30 23:58:60" = false) ∧
    (∀ dt : DTVal, dtCheck true dt = true → dt.second = some 60 →
      dt.hour = some 23 ∧ dt.minute = some 59 ∧ leapDateOk dt = true) := by
  refine ⟨by decide, fun dt h hs => ?_⟩
  obtain ⟨y, mo, d, hh, mi, se⟩ := dt
  change se = some 60 at hs
  subst hs
  simp [dtCheck] at h
  refine ⟨?_, ?_, ?_⟩ <;> tauto

/-- Witness for claim C6: the general consequence applied at a concretely
parsed leap-second moment. -/
theorem claim_C6_leapSecond_witness :
    dtCheck true ⟨some 1972, some 6, some 30, some 23, some 59, some 60⟩ = true ∧
    (⟨some 1972, some 6, some 30, some 23, some 59, some 60⟩ : DTVal).hour = some 23 ∧
    (⟨some 1972, some 6, some 30, some 23, some 59, some 60⟩ : DTVal).minute = some 59 ∧
    leapDateOk ⟨some 1972, some 6, some 30, some 23, some 59, some 60⟩ = true := by
  have h := claim_C6_leapSecond.2 ⟨some 1972, some 6, some 30, some 23, some 59, some 60⟩
    (by decide) rfl
  exact ⟨by decide, h.1, h.2.1, h.2.2⟩

theorem putField_new {fs : List (String × FldA × Sch)} {f : String × FldA × Sch}
    (h : ∀ g ∈ fs, g.1 ≠ f.1) : putField fs f = fs ++ [f] := by
  unfold putField
  have hany : (fs.any fun g => g.1 == f.1) = false := by
    rw [List.any_eq_false]
    intro g hg
    simpa using h g hg
  rw [hany]
  simp

theorem delField_notin {fs : List (String × FldA × Sch)} {n : String}
    (h : ∀ g ∈ fs, g.1 ≠ n) : delField fs n = fs := by
  unfold delField
  apply List.filter_eq_self.mpr
  intro g hg
  simpa using h g hg

theorem extend_delete_roundtrip {fs : List (String × FldA × Sch)} {f : String × FldA × Sch}
    (h : ∀ g ∈ fs, g.1 ≠ f.1) : delField (putField fs f) f.1 = fs := by
  rw [putField_new h]
  unfold delField
  rw [List.filter_append]
  have h1 : (fs.filter fun g => g.1 != f.1) = fs := delField_notin h
  have h2 : ([f].filter fun g => g.1 != f.1) = [] := by simp
  rw [h1, h2, List.append_nil]

theorem passes_unknown_field {n : Nat} {o : Opts} {acc : Option (List String)} {nl : Bool}
    {d : Option Bool} {w : Option String} {fields : List (String × FldA × Sch)}
    {fs : List (String × Val)} {k : String}
    (hk : k ∈ fs.map Prod.fst) (hsch : ∀ q ∈ fields, q.1 ≠ k) :
    passes (n + 1) (.vobj fs) (.sobj nl d w fields) o acc = false := by
  obtain ⟨p, hp, hp1⟩ := List.mem_map.mp hk
  have hany : (fields.any fun q => q.1 == p.1) = false := by
    rw [List.any_eq_false]
    intro q hq
    simp [hp1]
    exact hsch q hq
  have hmemu : (⟨"UnexpectedProperty", childPath "" p.1⟩ : Err) ∈
      fs.filterMap fun kv =>
        if fields.any (fun q => q.1 == kv.1) then none
        else some ⟨"UnexpectedProperty", childPath "" kv.1⟩ := by
    apply List.mem_filterMap.mpr
    exact ⟨p, hp, by rw [hany]; simp⟩
  unfold passes
  show (vSch (n + 1) o acc ["*"] "" (.sobj nl d w fields) (.vobj fs)).isEmpty = false
  simp only [vSch]
  cases hE : (List.isEmpty _) with
  | false => rfl
  | true =>
    exfalso
    have hnil := List.isEmpty_iff.mp hE
    rw [List.append_eq_nil] at hnil
    exact List.ne_nil_of_mem hmemu hnil.2

/-- Claim C7: in `$extend`, adding a field and then deleting it by setting
it to `undefined` returns the original field list, so the extended-deleted
schema behaves exactly as the original on every input; deleting a
non-existing field is a no-op; and an input supplying a value for the
deleted (hence undeclared) field is rejected as an unexpected property. -/
theorem claim_C7_extendDelete :
    ∀ (fs : List (String × FldA × Sch)) (f : String × FldA × Sch),
      (∀ g ∈ fs, g.1 ≠ f.1) →
      (∀ (nl : Bool) (d : Option Bool) (w : Option String) (fuel : Nat) (v : Val) (o : Opts)
          (acc : Option (List String)),
        process fuel v (.sobj nl d w (delField (putField fs f) f.1)) o acc =
          process fuel v (.sobj nl d w fs) o acc) ∧
      delField fs f.1 = fs ∧
      (∀ (nl : Bool) (d : Option Bool) (w : Option String) (fuel : Nat) (o : Opts)
          (acc : Option (List String)) (fsv : List (String × Val)),
        f.1 ∈ fsv.map Prod.fst →
        passes (fuel + 1) (.vobj fsv) (.sobj nl d w fs) o acc = false) := by
  intro fs f h
  refine ⟨?_, delField_notin h, ?_⟩
  · intro nl d w fuel v o acc
    rw [extend_delete_roundtrip h]
  · intro nl d w fuel o acc fsv hmem
    exact passes_unknown_field hmem h

/-- Witness for claim C7: the round-trip applied to the `{a: bool, b: int}`
base with added field `c: string`. -/
theorem claim_C7_extendDelete_witness :
    process 3 (.vobj [("a", .vbool true), ("b", .vnum 1234)])
        (.sobj false none none (delField (putField fldsC7 fldC7) "c")) kNoOpts none =
      process 3 (.vobj [("a", .vbool true), ("b", .vnum 1234)])
        (.sobj false none none fldsC7) kNoOpts none ∧
    delField fldsC7 "c" = fldsC7 ∧
    passes 3 (.vobj [("a", .vbool true), ("c", .vstr "exm")])
      (.sobj false none none fldsC7) kNoOpts none = false := by
  have h := claim_C7_extendDelete fldsC7 fldC7 (by decide)
  exact ⟨h.1 false none none 3 _ kNoOpts none, h.2.1,
    h.2.2 false none none 2 kNoOpts none _ (by decide)⟩

mutual

theorem cloneD_counter_le (c : Nat) : ∀ x : RVal, c ≤ (cloneD c x).2
  | .rnull => Nat.le_refl c
  | .rbool _ => Nat.le_refl c
  | .rnum _ => Nat.le_refl c
  | .rstr _ => Nat.le_refl c
  | .rarr _ es => Nat.le_trans (Nat.le_succ c) (cloneL_counter_le (c + 1) es)
  | .robj _ fs => Nat.le_trans (Nat.le_succ c) (cloneF_counter_le (c + 1) fs)

theorem cloneL_counter_le (c : Nat) : ∀ l : RList, c ≤ (cloneL c l).2
  | .rnil => Nat.le_refl c
  | .rcons v t =>
    Nat.le_trans (cloneD_counter_le c v) (cloneL_counter_le (cloneD c v).2 t)

theorem cloneF_counter_le (c : Nat) : ∀ l : RFields, c ≤ (cloneF c l).2
  | .fnil => Nat.le_refl c
  | .fcons _ v t =>
    Nat.le_trans (cloneD_counter_le c v) (cloneF_counter_le (cloneD c v).2 t)

end

mutual

theorem cloneD_ids_ge (c : Nat) : ∀ (x : RVal) (i : Nat), i ∈ idsR (cloneD c x).1 → c ≤ i
  | .rnull, i, h => absurd h (by simp [cloneD, idsR])
  | .rbool _, i, h => absurd h (by simp [cloneD, idsR])
  | .rnum _, i, h => absurd h (by simp [cloneD, idsR])
  | .rstr _, i, h => absurd h (by simp [cloneD, idsR])
  | .rarr _ es, i, h => by
    simp only [cloneD, idsR, List.mem_cons] at h
    rcases h with rfl | h
    · exact Nat.le_refl i
    · exact Nat.le_trans (Nat.le_succ c) (cloneL_ids_ge (c + 1) es i h)
  | .robj _ fs, i, h => by
    simp only [cloneD, idsR, List.mem_cons] at h
    rcases h with rfl | h
    · exact Nat.le_refl i
    · exact Nat.le_trans (Nat.le_succ c) (cloneF_ids_ge (c + 1) fs i h)

theorem cloneL_ids_ge (c : Nat) : ∀ (l : RList) (i : Nat), i ∈ idsL (cloneL c l).1 → c ≤ i
  | .rnil, i, h => absurd h (by simp [cloneL, idsL])
  | .rcons v t, i, h => by
    simp only [cloneL, idsL, List.mem_append] at h
    rcases h with h | h
    · exact cloneD_ids_ge c v i h
    · exact Nat.le_trans (cloneD_counter_le c v) (cloneL_ids_ge (cloneD c v).2 t i h)

theorem cloneF_ids_ge (c : Nat) : ∀ (l : RFields) (i : Nat), i ∈ idsF (cloneF c l).1 → c ≤ i
  | .fnil, i, h => absurd h (by simp [cloneF, idsF])
  | .fcons _ v t, i, h => by
    simp only [cloneF, idsF, List.mem_append] at h
    rcases h with h | h
    · exact cloneD_ids_ge c v i h
    · exact Nat.le_trans (cloneD_counter_le c v) (cloneF_ids_ge (cloneD c v).2 t i h)

end

theorem mem_le_foldr_max (i : Nat) : ∀ l : List Nat, i ∈ l → i ≤ l.foldr Nat.max 0
  | [], h => absurd h (List.not_mem_nil i)
  | x :: t, h => by
    rcases List.mem_cons.mp h with rfl | h
    · exact Nat.le_max_left i (t.foldr Nat.max 0)
    · exact Nat.le_trans (mem_le_foldr_max i t h) (Nat.le_max_right x (t.foldr Nat.max 0))

theorem fentries_key_mem {p : String × RVal} :
    ∀ {t : RFields}, p ∈ fentries t → p.1 ∈ fkeys t
  | .fnil, h => absurd h (by simp [fentries])
  | .fcons k v t, h => by
    rcases List.mem_cons.mp h with rfl | h
    · simp [fkeys]
    · simp [fkeys]
      exact Or.inr (fentries_key_mem h)

theorem flookup_self : ∀ {fs : RFields}, nodupKeysF fs = true →
    ∀ p ∈ fentries fs, flookup fs p.1 = some p.2
  | .fnil, _, p, hp => absurd hp (by simp [fentries])
  | .fcons k v t, h, p, hp => by
    have h2 : ¬(k ∈ fkeys t) ∧ nodupKeysF t = true := by
      simpa [nodupKeysF, Bool.and_eq_true] using h
    rcases List.mem_cons.mp hp with rfl | hp2
    · simp [flookup]
    · have hne : k ≠ p.1 := fun he => h2.1 (he ▸ fentries_key_mem hp2)
      rw [show flookup (.fcons k v t) p.1 = flookup t p.1 from if_neg hne]
      exact flookup_self h2.2 p hp2

theorem cloneF_flen (c : Nat) : ∀ t : RFields, flen (cloneF c t).1 = flen t
  | .fnil => rfl
  | .fcons _ v t => by
    simp only [cloneF, flen]
    rw [cloneF_flen (cloneD c v).2 t]

mutual

theorem cloneD_eq (c : Nat) : ∀ x : RVal, wfR x = true → eqR (cloneD c x).1 x = true
  | .rnull, _ => rfl
  | .rbool b, _ => by simp [cloneD, eqR]
  | .rnum n, _ => by simp [cloneD, eqR]
  | .rstr s, _ => by simp [cloneD, eqR]
  | .rarr _ es, h => by
    have h1 : wfL es = true := by simpa [wfR] using h
    simpa [cloneD, eqR] using cloneL_eq (c + 1) es h1
  | .robj _ fs, h => by
    have h1 : nodupKeysF fs = true ∧ wfF fs = true := by
      simpa [wfR, Bool.and_eq_true] using h
    have hlen := cloneF_flen (c + 1) fs
    have hsub := cloneF_fsub (c + 1) fs fs (flookup_self h1.1) h1.2
    simp [cloneD, eqR, hlen, hsub]

theorem cloneL_eq (c : Nat) : ∀ l : RList, wfL l = true → eqL (cloneL c l).1 l = true
  | .rnil, _ => rfl
  | .rcons v t, h => by
    have h2 : wfR v = true ∧ wfL t = true := by simpa [wfL, Bool.and_eq_true] using h
    simp [cloneL, eqL, cloneD_eq c v h2.1, cloneL_eq (cloneD c v).2 t h2.2]

theorem cloneF_fsub (c : Nat) : ∀ (t b : RFields),
    (∀ p ∈ fentries t, flookup b p.1 = some p.2) → wfF t = true →
    fsub (cloneF c t).1 b = true
  | .fnil, _, _, _ => rfl
  | .fcons k v t, b, hl, h => by
    have h2 : wfR v = true ∧ wfF t = true := by simpa [wfF, Bool.and_eq_true] using h
    have hk : flookup b k = some v := hl (k, v) (by simp [fentries])
    have hrec := cloneF_fsub (cloneD c v).2 t b
      (fun p hp => hl p (by simp [fentries, hp])) h2.2
    simp [cloneF, fsub, hk, cloneD_eq c v h2.1, hrec]

end

/-- Claim C8: for every well-formed acyclic value, the deep clone taken
with a counter above every identifier of the input is structurally equal to
the input (`equals(cloneDeep(x), x)`), and no array or object allocation of
the clone is shared with the input. -/
theorem claim_C8_cloneDeep :
    ∀ (c : Nat) (x : RVal), wfR x = true → maxIdR x < c →
      eqR (cloneD c x).1 x = true ∧ ∀ i ∈ idsR (cloneD c x).1, i ∉ idsR x := by
  intro c x hwf hc
  refine ⟨cloneD_eq c x hwf, fun i hi hmem => ?_⟩
  have h1 := cloneD_ids_ge c x i hi
  have h2 := mem_le_foldr_max i (idsR x) hmem
  unfold maxIdR at hc
  omega

/-- Witness for claim C8: the clone of the test object with counter 10 is
structurally equal to it and allocates only fresh identifiers. -/
theorem claim_C8_cloneDeep_witness :
    wfR rvTest = true ∧ maxIdR rvTest < 10 ∧
      (eqR (cloneD 10 rvTest).1 rvTest = true ∧
        ∀ i ∈ idsR (cloneD 10 rvTest).1, i ∉ idsR rvTest) :=
  ⟨by decide, by decide, claim_C8_cloneDeep 10 rvTest (by decide) (by decide)⟩

theorem find_filter_ne {v w : Int} (m : List (Int × String)) (hne : v ≠ w) :
    ((m.filter fun p => p.1 != w).find? fun p => p.1 == v) = m.find? fun p => p.1 == v := by
  induction m with
  | nil => rfl
  | cons a t ih =>
    by_cases hw : a.1 = w
    · have hkeep : (a.1 != w) = false := by simp [hw]
      have hpred : (a.1 == v) = false := by simp [hw]; omega
      rw [List.filter_cons, hkeep]
      simp only [ite_false, Bool.false_eq_true]
      rw [List.find?_cons_of_neg _ (by simp [hpred]), ih]
    · have hkeep : (a.1 != w) = true := by simp [hw]
      rw [List.filter_cons, hkeep]
      simp only [ite_true]
      by_cases hv : a.1 = v
      · rw [List.find?_cons_of_pos _ (by simp [hv]), List.find?_cons_of_pos _ (by simp [hv])]
      · rw [List.find?_cons_of_neg _ (by simp [hv]), List.find?_cons_of_neg _ (by simp [hv]), ih]

theorem valueToKey_first (defs : List (String × Int)) (v : Int) :
    valueToKey defs v = (defs.find? fun p => p.2 == v).map fun p => p.1 := by
  induction defs with
  | nil => rfl
  | cons a t ih =>
    obtain ⟨k, w⟩ := a
    by_cases h : w = v
    · subst h
      unfold valueToKey valueMapE
      rw [List.find?_cons_of_pos _ (by simp), List.find?_cons_of_pos _ (by simp)]
      rfl
    · unfold valueToKey valueMapE
      rw [List.find?_cons_of_neg _ (by simp [h]), List.find?_cons_of_neg _ (by simp; omega),
        find_filter_ne _ (fun he => h he.symm)]
      exact ih

theorem find_entry_of_nodup_vals : ∀ {defs : List (String × Int)} {k : String} {v : Int},
    nodupB (defs.map fun p => p.2) = true → (k, v) ∈ defs →
    (defs.find? fun p => p.2 == v) = some (k, v) := by
  intro defs
  induction defs with
  | nil => intro k v _ hmem; simp at hmem
  | cons a t ih =>
    intro k v hv hmem
    obtain ⟨k0, v0⟩ := a
    have hv2 : ¬(v0 ∈ t.map fun p => p.2) ∧ nodupB (t.map fun p => p.2) = true := by
      simpa [nodupB, Bool.and_eq_true] using hv
    by_cases h : v0 = v
    · subst h
      rcases List.mem_cons.mp hmem with heq | hmem2
      · rw [List.find?_cons_of_pos _ (by simp), heq]
      · exfalso
        exact hv2.1 (List.mem_map.mpr ⟨(k, v0), hmem2, rfl⟩)
    · rcases List.mem_cons.mp hmem with heq | hmem2
      · exact absurd (congrArg Prod.snd heq).symm h
      · rw [List.find?_cons_of_neg _ (by simp [h])]
        exact ih hv2.2 hmem2

theorem keyToValue_mem {defs : List (String × Int)} {k : String} {v : Int}
    (h : keyToValue defs k = some v) : (k, v) ∈ defs := by
  unfold keyToValue at h
  cases hf : defs.find? fun p => p.1 == k with
  | none => rw [hf] at h; simp at h
  | some p =>
    rw [hf] at h
    have hp := List.mem_of_find?_eq_some hf
    have hk : p.1 = k := by simpa using List.find?_some hf
    have hv : p.2 = v := by simpa using h
    obtain ⟨p1, p2⟩ := p
    rw [← hk, ← hv]
    exact hp

theorem nodupB_false_of_two : ∀ {defs : List (String × Int)} {k1 k2 : String} {v : Int},
    (k1, v) ∈ defs → (k2, v) ∈ defs → k1 ≠ k2 →
    nodupB (defs.map fun p => p.2) = false := by
  intro defs
  induction defs with
  | nil => intro k1 k2 v h1 _ _; simp at h1
  | cons a t ih =>
    intro k1 k2 v h1 h2 hne
    rcases List.mem_cons.mp h1 with he1 | m1
    · have m2 : (k2, v) ∈ t := by
        rcases List.mem_cons.mp h2 with he2 | m
        · exfalso
          exact hne (congrArg Prod.fst (he1.trans he2.symm))
        · exact m
      have hv : v ∈ t.map fun p => p.2 := List.mem_map.mpr ⟨(k2, v), m2, rfl⟩
      rw [← he1]
      simp [nodupB, hv]
    · rcases List.mem_cons.mp h2 with he2 | m2
      · have hv : v ∈ t.map fun p => p.2 := List.mem_map.mpr ⟨(k1, v), m1, rfl⟩
        rw [← he2]
        simp [nodupB, hv]
      · have hrec := ih m1 m2 hne
        obtain ⟨k0, v0⟩ := a
        simp [nodupB, hrec]

/-- Claim C9: for an enum whose values are unique,
`valueToKey (keyToValue k) = k` for every defined key; in general
`valueToKey` (the `$.valueMap` metadata) maps a value to the first key in
insertion order bound to it; and two distinct keys sharing a value force
`$.unique` to be false. -/
theorem claim_C9_enum :
    (∀ (defs : List (String × Int)) (k : String) (v : Int),
      nodupB (defs.map fun p => p.2) = true → keyToValue defs k = some v →
      valueToKey defs v = some k) ∧
    (∀ (defs : List (String × Int)) (v : Int),
      valueToKey defs v = (defs.find? fun p => p.2 == v).map fun p => p.1) ∧
    (∀ (defs : List (String × Int)) (k1 k2 : String) (v : Int),
      k1 ≠ k2 → keyToValue defs k1 = some v → keyToValue defs k2 = some v →
      uniqueVals defs = false) := by
  refine ⟨fun defs k v hnd hkv => ?_, valueToKey_first, fun defs k1 k2 v hne h1 h2 => ?_⟩
  · rw [valueToKey_first, find_entry_of_nodup_vals hnd (keyToValue_mem hkv)]
    rfl
  · exact nodupB_false_of_two (keyToValue_mem h1) (keyToValue_mem h2) hne

/-- Witness for claim C9: the animal enum round-trips `Mouse`, and the
colliding-value enum maps the shared value to its first key with
`$.unique` false. -/
theorem claim_C9_enum_witness :
    nodupB (animalDefs.map fun p => p.2) = true ∧
    keyToValue animalDefs "Mouse" = some 4 ∧
    valueToKey animalDefs 4 = some "Mouse" ∧
    valueToKey typeIdDefs 6563 = some "Object" ∧
    uniqueVals typeIdDefs = false := by
  refine ⟨by decide, by decide,
    claim_C9_enum.1 animalDefs "Mouse" 4 (by decide) (by decide), by decide,
    claim_C9_enum.2.2 typeIdDefs "Object" "Array" 6563 (by decide) (by decide) (by decide)⟩

/-- Claim C10: field names colliding with `Object.prototype` members behave
as ordinary data fields — the schema declaring the five special names as
optional strings accepts both the empty object and an object supplying a
string for each field, preserving the values in the output. -/
theorem claim_C10_protoFields :
    process 2 (.vobj []) schC10 kNoOpts none = .ok (.vobj []) ∧
    process 2 dataC10 schC10 kNoOpts none = .ok dataC10 :=
  ⟨rfl, rfl⟩

end XSchema
